import Mathlib

/-!
Verification development for the hp-adaptivity engine of Hermes2D
(`H1OrthoHP`, declared in `adapt_ortho_h1.h`).  The repository snapshot
contains the class declaration, the example drivers and the tests, but not
the implementation file `adapt_ortho_h1.cpp`; the definitions below are
therefore modelled from the specification's description of that module
(sections 3, 4.1, 4.3, 4.4, 7 and 8 of the spec), keeping the source's
names where Lean allows it.  The tutorial driver
`tutorial/10-adapt-system/main.cpp`, which is present in the repository,
is embedded directly from that source.
-/

namespace Hermes2D

/-- Modelled from the spec: the tagged refinement split variant
`{NONE, ISO, ANISO_H, ANISO_V}` (spec section 9, "Polymorphic dispatch over
split types"; the header passes it as the `int& split` out-parameter of
`get_optimal_refinement`). -/
inductive SplitType
  | NONE
  | ISO
  | ANISO_H
  | ANISO_V
deriving DecidableEq, Repr

/-- Modelled from the spec: the geometric shape of an element, triangle or
quadrilateral (spec section 3, "Mesh"). -/
inductive ElemMode
  | triangle
  | quad
deriving DecidableEq, Repr

/-- Modelled from the spec: one "Candidate Refinement Descriptor", the triple
(split-type, per-son polynomial-degree vector, projection error, DOF delta)
of spec section 3. -/
structure Candidate where
  split : SplitType
  p : List Nat
  error : ℚ
  dofs : ℤ
deriving DecidableEq, Repr

/-- Modelled from the spec: the epsilon guarding the denominator of the
error-reduction-per-DOF score (spec section 4.3 step 3; the spec leaves the
constant's value open, any positive constant realizes it). -/
def scoreEps : ℚ := 1 / 1000000

/-- Modelled from the spec: the score of a candidate, estimated error
reduction per unit of added degrees of freedom,
`(parent_error - candidate_error) / max(candidate_dof_cost - current_dof_cost, eps)`
(spec section 4.3 step 3). -/
def score (parentErr : ℚ) (curDofs : ℤ) (c : Candidate) : ℚ :=
  (parentErr - c.error) / max ((c.dofs : ℚ) - (curDofs : ℚ)) scoreEps

/-- Modelled from the spec: the tie-break order on split types, no-split
preferred over split and isotropic preferred over anisotropic
(spec section 4.3 step 3). -/
def splitRank : SplitType → Nat
  | .NONE => 0
  | .ISO => 1
  | .ANISO_H => 2
  | .ANISO_V => 3

/-- Modelled from the spec: of the running best candidate and a new one,
keep the new one exactly when it scores strictly higher, or ties the score
with a strictly smaller DOF cost, or ties both with a strictly smaller
split rank (spec section 4.3 step 3). -/
def pick (parentErr : ℚ) (curDofs : ℤ) (best c : Candidate) : Candidate :=
  if score parentErr curDofs best < score parentErr curDofs c
      ∨ (score parentErr curDofs c = score parentErr curDofs best
          ∧ (c.dofs < best.dofs
              ∨ (c.dofs = best.dofs ∧ splitRank c.split < splitRank best.split)))
  then c else best

/-- Modelled from the spec: fold the candidate list, keeping the best
candidate under the score with the DOF and split-rank tie-breaks
(spec section 4.3 step 3). -/
def selectBest (parentErr : ℚ) (curDofs : ℤ) (c : Candidate)
    (cs : List Candidate) : Candidate :=
  cs.foldl (pick parentErr curDofs) c

/-- The relation the selected candidate bears to every candidate examined:
no other candidate scores higher, ties are resolved toward the smaller DOF
cost, and full ties toward the smaller split rank. -/
def NotWorse (parentErr : ℚ) (curDofs : ℤ) (r d : Candidate) : Prop :=
  score parentErr curDofs d ≤ score parentErr curDofs r
    ∧ (score parentErr curDofs d = score parentErr curDofs r →
        r.dofs ≤ d.dofs ∧ (d.dofs = r.dofs → splitRank r.split ≤ splitRank d.split))

theorem notWorse_refl (parentErr : ℚ) (curDofs : ℤ) (c : Candidate) :
    NotWorse parentErr curDofs c c :=
  ⟨le_refl _, fun _ => ⟨le_refl _, fun _ => le_refl _⟩⟩

theorem notWorse_trans (parentErr : ℚ) (curDofs : ℤ) {a b c : Candidate}
    (hab : NotWorse parentErr curDofs a b) (hbc : NotWorse parentErr curDofs b c) :
    NotWorse parentErr curDofs a c := by
  obtain ⟨hs1, ht1⟩ := hab
  obtain ⟨hs2, ht2⟩ := hbc
  refine ⟨le_trans hs2 hs1, fun hca => ?_⟩
  have hba : score parentErr curDofs b = score parentErr curDofs a :=
    le_antisymm hs1 (hca ▸ hs2)
  have hcb : score parentErr curDofs c = score parentErr curDofs b := by
    rw [hba]; exact hca
  obtain ⟨hd1, hr1⟩ := ht1 hba
  obtain ⟨hd2, hr2⟩ := ht2 hcb
  refine ⟨le_trans hd1 hd2, fun hdca => ?_⟩
  have hdb : b.dofs = a.dofs := le_antisymm (hdca ▸ hd2) hd1
  have hdc : c.dofs = b.dofs := by rw [hdb]; exact hdca
  exact le_trans (hr1 hdb) (hr2 hdc)

theorem pick_eq_or (parentErr : ℚ) (curDofs : ℤ) (best c : Candidate) :
    pick parentErr curDofs best c = best ∨ pick parentErr curDofs best c = c := by
  unfold pick
  split
  · exact Or.inr rfl
  · exact Or.inl rfl

theorem pick_notWorse_left (parentErr : ℚ) (curDofs : ℤ) (best c : Candidate) :
    NotWorse parentErr curDofs (pick parentErr curDofs best c) best := by
  unfold pick
  split
  · next h =>
    rcases h with h | ⟨heq, hd⟩
    · exact ⟨le_of_lt h, fun habs => absurd habs (ne_of_lt h)⟩
    · refine ⟨le_of_eq heq.symm, fun _ => ?_⟩
      rcases hd with hd | ⟨hdeq, hr⟩
      · exact ⟨le_of_lt hd, fun habs => absurd habs.symm (ne_of_lt hd)⟩
      · exact ⟨le_of_eq hdeq, fun _ => le_of_lt hr⟩
  · exact notWorse_refl _ _ _

theorem pick_notWorse_right (parentErr : ℚ) (curDofs : ℤ) (best c : Candidate) :
    NotWorse parentErr curDofs (pick parentErr curDofs best c) c := by
  unfold pick
  split
  · exact notWorse_refl _ _ _
  · next h =>
    push_neg at h
    obtain ⟨hs, ht⟩ := h
    refine ⟨hs, fun heq => ?_⟩
    have ht' := ht heq
    push_neg at ht'
    obtain ⟨hd, hr⟩ := ht'
    exact ⟨hd, fun hdeq => hr hdeq⟩

theorem selectBest_mem (parentErr : ℚ) (curDofs : ℤ) (c : Candidate)
    (cs : List Candidate) : selectBest parentErr curDofs c cs ∈ c :: cs := by
  induction cs generalizing c with
  | nil => exact List.mem_singleton.mpr rfl
  | cons d ds ih =>
    have hstep : selectBest parentErr curDofs c (d :: ds)
        = selectBest parentErr curDofs (pick parentErr curDofs c d) ds := rfl
    rw [hstep]
    rcases pick_eq_or parentErr curDofs c d with hp | hp <;> rw [hp]
    · rcases List.mem_cons.mp (ih c) with h' | h'
      · exact List.mem_cons.mpr (Or.inl h')
      · exact List.mem_cons.mpr (Or.inr (List.mem_cons.mpr (Or.inr h')))
    · rcases List.mem_cons.mp (ih d) with h' | h'
      · exact List.mem_cons.mpr (Or.inr (List.mem_cons.mpr (Or.inl h')))
      · exact List.mem_cons.mpr (Or.inr (List.mem_cons.mpr (Or.inr h')))

theorem selectBest_notWorse (parentErr : ℚ) (curDofs : ℤ) (c : Candidate)
    (cs : List Candidate) :
    ∀ d ∈ c :: cs, NotWorse parentErr curDofs (selectBest parentErr curDofs c cs) d := by
  induction cs generalizing c with
  | nil =>
    intro d hd
    rw [List.mem_singleton.mp hd]
    exact notWorse_refl _ _ _
  | cons x xs ih =>
    intro d hd
    have hstep : selectBest parentErr curDofs c (x :: xs)
        = selectBest parentErr curDofs (pick parentErr curDofs c x) xs := rfl
    rw [hstep]
    have hhead := ih (pick parentErr curDofs c x) (pick parentErr curDofs c x)
      (List.mem_cons.mpr (Or.inl rfl))
    rcases List.mem_cons.mp hd with h | h
    · subst h
      exact notWorse_trans parentErr curDofs hhead (pick_notWorse_left _ _ _ _)
    · rcases List.mem_cons.mp h with h' | h'
      · subst h'
        exact notWorse_trans parentErr curDofs hhead (pick_notWorse_right _ _ _ _)
      · exact ih (pick parentErr curDofs c x) d (List.mem_cons.mpr (Or.inr h'))

/-- Modelled from the spec: the per-element data the analyzer works from for
one call of `get_optimal_refinement` (the element's shape and current order,
its current error contribution, and the projection-error tables produced by
`calc_projection_errors` - the header declares them as `herr[4][11]` for the
four isotropic sons and `perr[11]` for the pure p-candidates; the two
anisotropic tables cover the two 2-way splits of a quadrilateral). -/
structure ElemInfo where
  mode : ElemMode
  order : Nat
  parentErr : ℚ
  perr : Nat → ℚ
  herr : Nat → Nat → ℚ
  aerrH : Nat → Nat → ℚ
  aerrV : Nat → Nat → ℚ

/-- Modelled from the spec: the DOF count of one element of the given shape
carrying polynomial order p (H1 space dimension: (p+1)(p+2)/2 on a triangle,
(p+1)^2 on a quadrilateral). -/
def dofCount : ElemMode → Nat → ℤ
  | .triangle, p => ((p : ℤ) + 1) * ((p : ℤ) + 2) / 2
  | .quad, p => ((p : ℤ) + 1) ^ 2

/-- Modelled from the spec: the pure p-refinement candidates, the same
geometry at a sequence of increasing polynomial orders up to the cap
(spec section 4.3 step 1a; the current order is the no-op candidate). -/
def pCands (info : ElemInfo) (maxOrd : Nat) : List Candidate :=
  (List.range' info.order (maxOrd + 1 - info.order)).map fun q =>
    ⟨.NONE, [q], info.perr q, dofCount info.mode q⟩

/-- Modelled from the spec: the isotropic 4-way split candidates, each of the
four sons independently trying a range of orders up to the cap
(spec section 4.3 step 1b). -/
def isoCands (info : ElemInfo) (maxOrd : Nat) : List Candidate :=
  (List.range' 1 maxOrd).flatMap fun q0 =>
    (List.range' 1 maxOrd).flatMap fun q1 =>
      (List.range' 1 maxOrd).flatMap fun q2 =>
        (List.range' 1 maxOrd).map fun q3 =>
          ⟨.ISO, [q0, q1, q2, q3],
            info.herr 0 q0 + info.herr 1 q1 + info.herr 2 q2 + info.herr 3 q3,
            dofCount info.mode q0 + dofCount info.mode q1
              + dofCount info.mode q2 + dofCount info.mode q3⟩

/-- Modelled from the spec: one family of anisotropic 2-way split candidates
over a quadrilateral, both sons independently trying a range of orders up to
the cap (spec section 4.3 step 1b). -/
def anisoCands (split : SplitType) (tbl : Nat → Nat → ℚ) (maxOrd : Nat) :
    List Candidate :=
  (List.range' 1 maxOrd).flatMap fun q0 =>
    (List.range' 1 maxOrd).map fun q1 =>
      ⟨split, [q0, q1], tbl 0 q0 + tbl 1 q1,
        dofCount .quad q0 + dofCount .quad q1⟩

/-- Modelled from the spec: the admissible candidate set of one element:
p-candidates unless pure-h mode is set, the isotropic split, and - only for
quadrilaterals and only when isotropic-only mode is not forced - the two
anisotropic splits; an unsupported candidate (an anisotropic split of a
triangle) is silently left out of the set (spec sections 4.3 steps 1 and 4,
and 7 item 3). -/
def genCandidates (info : ElemInfo) (h_only iso_only : Bool) (maxOrd : Nat) :
    List Candidate :=
  (if h_only then [] else pCands info maxOrd)
    ++ isoCands info maxOrd
    ++ (if info.mode = ElemMode.quad ∧ iso_only = false then
          anisoCands .ANISO_H info.aerrH maxOrd
            ++ anisoCands .ANISO_V info.aerrV maxOrd
        else [])

/-- Modelled from the spec: `H1OrthoHP::get_optimal_refinement` (header
part_001 lines 74-77): scores every admissible candidate and returns the one
maximizing estimated error reduction per unit of added degrees of freedom,
with ties broken toward the smaller DOF cost and then the smaller split rank;
when the candidate set is empty it keeps the element as it is. -/
def get_optimal_refinement (info : ElemInfo) (h_only iso_only : Bool)
    (maxOrd : Nat) : Candidate :=
  match genCandidates info h_only iso_only maxOrd with
  | [] => ⟨.NONE, [info.order], info.perr info.order, dofCount info.mode info.order⟩
  | c :: cs => selectBest info.parentErr (dofCount info.mode info.order) c cs

theorem pCands_split (info : ElemInfo) (maxOrd : Nat) :
    ∀ c ∈ pCands info maxOrd, c.split = SplitType.NONE := by
  intro c hc
  obtain ⟨q, _, hq⟩ := List.mem_map.mp hc
  rw [← hq]

theorem isoCands_split (info : ElemInfo) (maxOrd : Nat) :
    ∀ c ∈ isoCands info maxOrd, c.split = SplitType.ISO := by
  intro c hc
  obtain ⟨q0, _, hc⟩ := List.mem_flatMap.mp hc
  obtain ⟨q1, _, hc⟩ := List.mem_flatMap.mp hc
  obtain ⟨q2, _, hc⟩ := List.mem_flatMap.mp hc
  obtain ⟨q3, _, hq⟩ := List.mem_map.mp hc
  rw [← hq]

/-- C1: for every element analyzed by `get_optimal_refinement`, the returned
refinement is a member of the admissible candidate set and maximizes
`(parent_error - candidate_error) / max(candidate_dof_cost - current_dof_cost, eps)`
over that set; `NotWorse` states the tie-breaks: a candidate tying the score
has a DOF cost no smaller than the winner's, and one tying both score and DOF
cost has a split rank (no-split 0, isotropic 1, anisotropic 2 and 3) no
smaller than the winner's. -/
theorem get_optimal_refinement_maximizes_error_per_dof
    (info : ElemInfo) (h_only iso_only : Bool) (maxOrd : Nat)
    (c : Candidate) (cs : List Candidate)
    (hgen : genCandidates info h_only iso_only maxOrd = c :: cs) :
    get_optimal_refinement info h_only iso_only maxOrd
        ∈ genCandidates info h_only iso_only maxOrd
      ∧ ∀ d ∈ genCandidates info h_only iso_only maxOrd,
          NotWorse info.parentErr (dofCount info.mode info.order)
            (get_optimal_refinement info h_only iso_only maxOrd) d := by
  have hres : get_optimal_refinement info h_only iso_only maxOrd
      = selectBest info.parentErr (dofCount info.mode info.order) c cs := by
    unfold get_optimal_refinement
    rw [hgen]
  rw [hres, hgen]
  exact ⟨selectBest_mem _ _ _ _, selectBest_notWorse _ _ _ _⟩

/-- Concrete element data used to witness the analyzer theorems: a unit
quadrilateral element of order 1 with all projection errors zero. -/
def wQuadInfo : ElemInfo :=
  ⟨ElemMode.quad, 1, 1, fun _ => 0, fun _ _ => 0, fun _ _ => 0, fun _ _ => 0⟩

theorem get_optimal_refinement_maximizes_error_per_dof_witness :
    genCandidates wQuadInfo false false 1
        = [⟨.NONE, [1], 0, 4⟩, ⟨.ISO, [1, 1, 1, 1], 0 + 0 + 0 + 0, 4 + 4 + 4 + 4⟩,
           ⟨.ANISO_H, [1, 1], 0 + 0, 4 + 4⟩, ⟨.ANISO_V, [1, 1], 0 + 0, 4 + 4⟩]
      ∧ (get_optimal_refinement wQuadInfo false false 1
            ∈ genCandidates wQuadInfo false false 1
          ∧ ∀ d ∈ genCandidates wQuadInfo false false 1,
              NotWorse wQuadInfo.parentErr
                (dofCount wQuadInfo.mode wQuadInfo.order)
                (get_optimal_refinement wQuadInfo false false 1) d) :=
  ⟨rfl,
   get_optimal_refinement_maximizes_error_per_dof wQuadInfo false false 1
     ⟨.NONE, [1], 0, 4⟩
     [⟨.ISO, [1, 1, 1, 1], 0 + 0 + 0 + 0, 4 + 4 + 4 + 4⟩,
      ⟨.ANISO_H, [1, 1], 0 + 0, 4 + 4⟩, ⟨.ANISO_V, [1, 1], 0 + 0, 4 + 4⟩]
     rfl⟩

/-- C7: for a triangular element the candidate set never holds an anisotropic
split - those are generated only for quadrilaterals - and so the refinement
`get_optimal_refinement` returns is never anisotropic; the unsupported
candidate is silently excluded, not raised as an error. -/
theorem triangle_never_anisotropic (info : ElemInfo) (h_only iso_only : Bool)
    (maxOrd : Nat) (htri : info.mode = ElemMode.triangle) :
    (∀ c ∈ genCandidates info h_only iso_only maxOrd,
        c.split ≠ SplitType.ANISO_H ∧ c.split ≠ SplitType.ANISO_V)
      ∧ (get_optimal_refinement info h_only iso_only maxOrd).split
          ≠ SplitType.ANISO_H
      ∧ (get_optimal_refinement info h_only iso_only maxOrd).split
          ≠ SplitType.ANISO_V := by
  have hmem : ∀ c ∈ genCandidates info h_only iso_only maxOrd,
      c.split = SplitType.NONE ∨ c.split = SplitType.ISO := by
    intro c hc
    unfold genCandidates at hc
    rw [htri] at hc
    simp only [reduceCtorEq, false_and, if_false, List.append_nil] at hc
    rcases List.mem_append.mp hc with hc | hc
    · left
      by_cases hh : h_only
      · rw [if_pos hh] at hc
        exact absurd hc (List.not_mem_nil c)
      · rw [if_neg hh] at hc
        exact pCands_split info maxOrd c hc
    · right
      exact isoCands_split info maxOrd c hc
  have hsplit : (get_optimal_refinement info h_only iso_only maxOrd).split
      = SplitType.NONE ∨ (get_optimal_refinement info h_only iso_only maxOrd).split
      = SplitType.ISO := by
    cases hg : genCandidates info h_only iso_only maxOrd with
    | nil =>
      left
      unfold get_optimal_refinement
      rw [hg]
    | cons c cs =>
      have hres : get_optimal_refinement info h_only iso_only maxOrd
          = selectBest info.parentErr (dofCount info.mode info.order) c cs := by
        unfold get_optimal_refinement
        rw [hg]
      refine hmem _ ?_
      rw [hres, hg]
      exact selectBest_mem _ _ _ _
  refine ⟨fun c hc => ?_, ?_, ?_⟩
  · rcases hmem c hc with h | h <;> rw [h] <;> exact ⟨by decide, by decide⟩
  · rcases hsplit with h | h <;> rw [h] <;> decide
  · rcases hsplit with h | h <;> rw [h] <;> decide

/-- Concrete element data used to witness the triangle theorem: a triangular
element of order 2. -/
def wTriInfo : ElemInfo :=
  ⟨ElemMode.triangle, 2, 1, fun _ => 0, fun _ _ => 0, fun _ _ => 0, fun _ _ => 0⟩

theorem triangle_never_anisotropic_witness :
    wTriInfo.mode = ElemMode.triangle
      ∧ ((∀ c ∈ genCandidates wTriInfo false false 3,
            c.split ≠ SplitType.ANISO_H ∧ c.split ≠ SplitType.ANISO_V)
          ∧ (get_optimal_refinement wTriInfo false false 3).split
              ≠ SplitType.ANISO_H
          ∧ (get_optimal_refinement wTriInfo false false 3).split
              ≠ SplitType.ANISO_V) :=
  ⟨rfl, triangle_never_anisotropic wTriInfo false false 3 rfl⟩

/-- Modelled from the spec and header: the error-container state of an
`H1OrthoHP` instance (header part_001 lines 85-99): the component count, the
per-component per-element error array `errors`, the descending-sorted error
index `esort`, the total error, the `have_errors` flag set by the
`calc_error` family, and the per-element analyzer data. -/
structure AdaptState where
  num : Nat
  errors : Nat → Nat → ℚ
  esort : List (Nat × Nat)
  total_err : ℚ
  have_errors : Bool
  elemData : Nat × Nat → ElemInfo

/-- The stored error of one (component, element id) pair, as
`get_element_error` reads it from the `errors` array. -/
def elemErr (s : AdaptState) (i : Nat × Nat) : ℚ := s.errors i.1 i.2

/-- Modelled from the spec: the three refinement strategies of `adapt`
(spec section 4.4 step 2; documented in the repository at
tutorial/10-adapt-system/main.cpp lines 35-43). -/
inductive Strategy
  | s0
  | s1
  | s2
deriving DecidableEq, Repr

/-- Modelled from the spec and header: the parameter set of
`adapt(thr, strat, adapt_type, iso_only, regularize, max_order, same_orders,
to_be_processed)` (header part_001 lines 66-69); the threshold is a double
and may be plus infinity, modelled by `WithTop`. -/
structure AdaptParams where
  thr : WithTop ℚ
  strat : Strategy
  adaptType : Nat
  isoOnly : Bool
  regularize : ℤ
  maxOrder : Nat
  sameOrders : Bool
  toBeProcessed : ℚ

/-- Modelled from the spec: the strategy-0 walk over the descending-sorted
error index: keep accumulating element error while the running sum has not
reached the limit, and once it has, still include every following element
whose error matches the boundary element's error (spec section 4.4 step 2,
STRATEGY=0: "if multiple elements share the boundary error value, include
all of them"). -/
def walk0 (err : Nat × Nat → ℚ) (reached : ℚ → Bool) :
    List (Nat × Nat) → ℚ → Option ℚ → List (Nat × Nat)
  | [], _, _ => []
  | x :: xs, acc, last =>
    if reached acc = false ∨ last = some (err x) then
      x :: walk0 err reached xs (acc + err x) (some (err x))
    else []

/-- Modelled from the spec: whether the strategy-0 running error sum has
reached its target.  With no external budget the target is
`sqrt(threshold) * total_error`; the comparison is kept in exact rational
arithmetic by squaring (the bridge to the square-root form is
`reached0_iff_sqrt`), an infinite threshold is never reached, and a nonzero
`to_be_processed` budget replaces the target (spec section 4.4 step 2). -/
def reached0 (thr : WithTop ℚ) (tbp total : ℚ) (acc : ℚ) : Bool :=
  if tbp = 0 then
    match thr with
    | ⊤ => false
    | (t : ℚ) => decide (t * total ^ 2 ≤ acc ^ 2 ∧ 0 ≤ acc)
  else decide (tbp ≤ acc)

/-- The maximum stored element error, used by STRATEGY=1. -/
def maxElemErr (s : AdaptState) : ℚ := (s.esort.map (elemErr s)).foldl max 0

/-- Modelled from the spec: threshold times maximum element error, the
STRATEGY=1 cut, kept in `WithTop` to model an infinite threshold. -/
def thrTimesMax (thr : WithTop ℚ) (m : ℚ) : WithTop ℚ :=
  match thr with
  | ⊤ => ⊤
  | (t : ℚ) => ((t * m : ℚ) : WithTop ℚ)

/-- Modelled from the spec: the element selection of one `adapt` pass under
the chosen strategy (spec section 4.4 step 2): STRATEGY=0 walks the sorted
index accumulating error, STRATEGY=1 takes every element whose error exceeds
threshold times the maximum element error, STRATEGY=2 every element whose
absolute error exceeds the threshold. -/
def selectedElems (s : AdaptState) (p : AdaptParams) : List (Nat × Nat) :=
  match p.strat with
  | .s0 => walk0 (elemErr s) (reached0 p.thr p.toBeProcessed s.total_err)
      s.esort 0 none
  | .s1 => s.esort.filter fun i =>
      decide (thrTimesMax p.thr (maxElemErr s) < ((elemErr s i : ℚ) : WithTop ℚ))
  | .s2 => s.esort.filter fun i =>
      decide (p.thr < ((elemErr s i : ℚ) : WithTop ℚ))

/-- Modelled from the spec: the fatal programming errors of the module
(spec section 7 item 1): calling adapt before calc_error, and requesting an
orthonormal-basis table for an order above the compiled maximum. -/
inductive Fatal
  | adaptBeforeCalcError
  | orderAboveMax
deriving DecidableEq, Repr

/-- Modelled from the spec: one refinement command issued to the mesh layer
for a selected element, carrying the winning candidate
(spec sections 4.4 step 3 and 6: `refine_element(id, split_type)`). -/
structure RefineCmd where
  comp : Nat
  id : Nat
  cand : Candidate

/-- The optimal refinement of one selected element: `adapt_type = 1` forces
pure h-refinement, and `iso_only` and `max_order` are forwarded into the
candidate filter (spec section 4.4 step 3). -/
def refineCmdFor (s : AdaptState) (p : AdaptParams) (i : Nat × Nat) :
    RefineCmd :=
  ⟨i.1, i.2,
    get_optimal_refinement (s.elemData i) (decide (p.adaptType = 1))
      p.isoOnly p.maxOrder⟩

/-- Modelled from the spec and header: `H1OrthoHP::adapt` (header part_001
lines 66-69): calling it before any `calc_error_*` call is a fatal error
reported to the caller; otherwise it selects elements under the strategy,
computes each one's optimal refinement, and returns the refinement commands
together with the flag telling whether any element was selected at all
(spec section 4.4; the flag is false once no elements were selected). -/
def adapt (s : AdaptState) (p : AdaptParams) :
    Except Fatal (List RefineCmd × Bool) :=
  if s.have_errors = true then
    Except.ok ((selectedElems s p).map (refineCmdFor s p),
      !(selectedElems s p).isEmpty)
  else Except.error Fatal.adaptBeforeCalcError

/-- From src/tutorial/10-adapt-system/main.cpp line 60: the caller's error
tolerance in percent. -/
def ERR_STOP : ℚ := 5 / 100

/-- From src/tutorial/10-adapt-system/main.cpp line 62: the caller's budget
on degrees of freedom. -/
def NDOF_STOP : Nat := 40000

/-- From src/tutorial/10-adapt-system/main.cpp lines 215-222: the caller,
not `adapt`, decides termination: the pass is final when the error estimate
falls under ERR_STOP, and otherwise the mesh is adapted and the pass is
final when the dof count reaches NDOF_STOP. -/
def driverDone (errEst : ℚ) (ndofsAfterAdapt : Nat) : Bool :=
  if errEst < ERR_STOP then true else decide (NDOF_STOP ≤ ndofsAfterAdapt)

/-- C2: calling `adapt` while no element errors have been computed and
cached (the `have_errors` flag still unset, as it is before any
`calc_error_*` call) is a fatal error reported to the caller and never
silently tolerated: `adapt` returns the error and no ok result, so it
selects and refines no element in that state. -/
theorem adapt_before_calc_error_is_fatal (s : AdaptState) (p : AdaptParams)
    (h : s.have_errors = false) :
    adapt s p = Except.error Fatal.adaptBeforeCalcError
      ∧ ∀ r : List RefineCmd × Bool, adapt s p ≠ Except.ok r := by
  have he : adapt s p = Except.error Fatal.adaptBeforeCalcError := by
    unfold adapt
    rw [h]
    simp
  refine ⟨he, fun r hr => ?_⟩
  rw [he] at hr
  exact Except.noConfusion hr

/-- Concrete instance state used by the adapt witnesses: one component,
empty error record, errors not yet computed. -/
def wStateFresh : AdaptState :=
  ⟨1, fun _ _ => 0, [], 0, false, fun _ => wQuadInfo⟩

/-- Concrete instance state used by the adapt witnesses: one component with
one active element of error 1, errors computed. -/
def wStateReady : AdaptState :=
  ⟨1, fun _ _ => 1, [(0, 0)], 1, true, fun _ => wQuadInfo⟩

/-- Concrete adapt parameters used by the witnesses: finite threshold,
STRATEGY=0, hp adaptivity. -/
def wParams0 : AdaptParams :=
  ⟨((3 : ℚ) : WithTop ℚ), Strategy.s0, 0, false, -1, 10, false, 0⟩

theorem adapt_before_calc_error_is_fatal_witness :
    wStateFresh.have_errors = false
      ∧ (adapt wStateFresh wParams0 = Except.error Fatal.adaptBeforeCalcError
          ∧ ∀ r : List RefineCmd × Bool,
              adapt wStateFresh wParams0 ≠ Except.ok r) :=
  ⟨rfl, adapt_before_calc_error_is_fatal wStateFresh wParams0 rfl⟩

/-- C3: for every valid invocation (errors already computed), `adapt`
returns an ok result whose boolean is false exactly when the strategy
selected zero elements in the pass; `adapt` itself never terminates the
adaptivity process on the error tolerance - in the driver embedded from
src/tutorial/10-adapt-system/main.cpp lines 215-222, the caller compares the
calc_error result against ERR_STOP (and the dof count against NDOF_STOP)
and that comparison alone decides the stop. -/
theorem adapt_false_iff_no_selection (s : AdaptState) (p : AdaptParams)
    (h : s.have_errors = true) :
    adapt s p = Except.ok ((selectedElems s p).map (refineCmdFor s p),
        !(selectedElems s p).isEmpty)
      ∧ ((!(selectedElems s p).isEmpty) = false ↔ selectedElems s p = [])
      ∧ (∀ errEst ndofs, errEst < ERR_STOP → driverDone errEst ndofs = true)
      ∧ (∀ errEst ndofs, ¬ errEst < ERR_STOP →
          (driverDone errEst ndofs = true ↔ NDOF_STOP ≤ ndofs)) := by
  refine ⟨?_, ?_, ?_, ?_⟩
  · unfold adapt
    rw [h]
    simp
  · simp [List.isEmpty_iff]
  · intro e n he
    unfold driverDone
    rw [if_pos he]
  · intro e n he
    unfold driverDone
    rw [if_neg he]
    simp

theorem adapt_false_iff_no_selection_witness :
    wStateReady.have_errors = true
      ∧ (adapt wStateReady wParams0
            = Except.ok ((selectedElems wStateReady wParams0).map
                (refineCmdFor wStateReady wParams0),
              !(selectedElems wStateReady wParams0).isEmpty)
          ∧ ((!(selectedElems wStateReady wParams0).isEmpty) = false
              ↔ selectedElems wStateReady wParams0 = [])
          ∧ (∀ errEst ndofs, errEst < ERR_STOP → driverDone errEst ndofs = true)
          ∧ (∀ errEst ndofs, ¬ errEst < ERR_STOP →
              (driverDone errEst ndofs = true ↔ NDOF_STOP ≤ ndofs))) :=
  ⟨rfl, adapt_false_iff_no_selection wStateReady wParams0 rfl⟩

/-- C5: under STRATEGY=2 the selection is exactly the active elements whose
error exceeds the threshold; with threshold plus infinity `adapt` selects
zero elements and its ok-flag is false, and with threshold zero it selects
every active element (their stored errors being positive). -/
theorem adapt_strategy2_threshold_filter (s : AdaptState) (p : AdaptParams)
    (hstrat : p.strat = Strategy.s2) (h : s.have_errors = true) :
    selectedElems s p = s.esort.filter (fun i =>
        decide (p.thr < ((elemErr s i : ℚ) : WithTop ℚ)))
      ∧ (p.thr = ⊤ → selectedElems s p = []
          ∧ adapt s p = Except.ok ([], false))
      ∧ (p.thr = ((0 : ℚ) : WithTop ℚ) → (∀ i ∈ s.esort, 0 < elemErr s i) →
          selectedElems s p = s.esort) := by
  have hsel : selectedElems s p = s.esort.filter (fun i =>
      decide (p.thr < ((elemErr s i : ℚ) : WithTop ℚ))) := by
    unfold selectedElems
    rw [hstrat]
  refine ⟨hsel, fun htop => ?_, fun hzero hpos => ?_⟩
  · have hempty : selectedElems s p = [] := by
      rw [hsel, htop]
      simp [List.filter_eq_nil_iff, not_top_lt]
    refine ⟨hempty, ?_⟩
    unfold adapt
    rw [h, hempty]
    simp
  · rw [hsel, hzero]
    apply List.filter_eq_self.mpr
    intro i hi
    simp only [decide_eq_true_eq]
    exact_mod_cast hpos i hi

/-- Concrete adapt parameters used by the STRATEGY=2 witness: an infinite
threshold. -/
def wParamsInf : AdaptParams :=
  ⟨⊤, Strategy.s2, 0, false, -1, 10, false, 0⟩

theorem adapt_strategy2_threshold_filter_witness :
    wParamsInf.strat = Strategy.s2
      ∧ wStateReady.have_errors = true
      ∧ (selectedElems wStateReady wParamsInf
            = wStateReady.esort.filter (fun i =>
                decide (wParamsInf.thr
                  < ((elemErr wStateReady i : ℚ) : WithTop ℚ)))
          ∧ (wParamsInf.thr = ⊤ → selectedElems wStateReady wParamsInf = []
              ∧ adapt wStateReady wParamsInf = Except.ok ([], false))
          ∧ (wParamsInf.thr = ((0 : ℚ) : WithTop ℚ) →
              (∀ i ∈ wStateReady.esort, 0 < elemErr wStateReady i) →
              selectedElems wStateReady wParamsInf = wStateReady.esort)) :=
  ⟨rfl, rfl, adapt_strategy2_threshold_filter wStateReady wParamsInf rfl rfl⟩

theorem walk0_cons (err : Nat × Nat → ℚ) (reached : ℚ → Bool)
    (x : Nat × Nat) (xs : List (Nat × Nat)) (acc : ℚ) (last : Option ℚ) :
    walk0 err reached (x :: xs) acc last
      = if reached acc = false ∨ last = some (err x) then
          x :: walk0 err reached xs (acc + err x) (some (err x))
        else [] := rfl

theorem walk0_prefix (err : Nat × Nat → ℚ) (reached : ℚ → Bool) :
    ∀ (l : List (Nat × Nat)) (acc : ℚ) (last : Option ℚ),
      ∃ rest, walk0 err reached l acc last ++ rest = l := by
  intro l
  induction l with
  | nil => exact fun acc last => ⟨[], rfl⟩
  | cons x xs ih =>
    intro acc last
    by_cases hc : reached acc = false ∨ last = some (err x)
    · have hw : walk0 err reached (x :: xs) acc last
          = x :: walk0 err reached xs (acc + err x) (some (err x)) := by
        rw [walk0_cons, if_pos hc]
      obtain ⟨rest, hrest⟩ := ih (acc + err x) (some (err x))
      exact ⟨rest, by rw [hw, List.cons_append, hrest]⟩
    · have hw : walk0 err reached (x :: xs) acc last = [] := by
        rw [walk0_cons, if_neg hc]
      exact ⟨x :: xs, by rw [hw, List.nil_append]⟩

theorem walk0_stop (err : Nat × Nat → ℚ) (reached : ℚ → Bool) :
    ∀ (l : List (Nat × Nat)) (acc : ℚ) (last : Option ℚ),
      walk0 err reached l acc last ≠ l →
      reached (acc + ((walk0 err reached l acc last).map err).sum) = true := by
  intro l
  induction l with
  | nil => exact fun acc last h => absurd rfl h
  | cons x xs ih =>
    intro acc last h
    by_cases hc : reached acc = false ∨ last = some (err x)
    · have hw : walk0 err reached (x :: xs) acc last
          = x :: walk0 err reached xs (acc + err x) (some (err x)) := by
        rw [walk0_cons, if_pos hc]
      rw [hw] at h ⊢
      have h' : walk0 err reached xs (acc + err x) (some (err x)) ≠ xs :=
        fun he => h (by rw [he])
      have hrec := ih (acc + err x) (some (err x)) h'
      rw [List.map_cons, List.sum_cons, ← add_assoc]
      exact hrec
    · have hw : walk0 err reached (x :: xs) acc last = [] := by
        rw [walk0_cons, if_neg hc]
      rw [hw]
      simp only [List.map_nil, List.sum_nil, add_zero]
      push_neg at hc
      cases hb : reached acc with
      | false => exact absurd hb hc.1
      | true => rfl

theorem walk0_tie_all (err : Nat × Nat → ℚ) (reached : ℚ → Bool) :
    ∀ (l : List (Nat × Nat)) (acc v : ℚ) (b : Nat × Nat),
      List.Pairwise (fun a c => err c ≤ err a) l →
      (∀ c ∈ l, err c ≤ v) → b ∈ l → err b = v →
      b ∈ walk0 err reached l acc (some v) := by
  intro l
  induction l with
  | nil => exact fun acc v b _ _ hb _ => absurd hb (List.not_mem_nil b)
  | cons x xs ih =>
    intro acc v b hpair hle hb hbv
    have hxv : err x = v := by
      rcases List.mem_cons.mp hb with rfl | hbxs
      · exact hbv
      · have h1 : err b ≤ err x := (List.pairwise_cons.mp hpair).1 b hbxs
        have h3 : v ≤ err x := hbv ▸ h1
        exact le_antisymm (hle x (List.mem_cons_self x xs)) h3
    have hcond : reached acc = false ∨ (some v : Option ℚ) = some (err x) :=
      Or.inr (by rw [hxv])
    have hw : walk0 err reached (x :: xs) acc (some v)
        = x :: walk0 err reached xs (acc + err x) (some (err x)) := by
      rw [walk0_cons, if_pos hcond]
    rw [hw]
    rcases List.mem_cons.mp hb with rfl | hbxs
    · exact List.mem_cons_self _ _
    · refine List.mem_cons.mpr (Or.inr ?_)
      have hrec := ih (acc + err x) v b (List.pairwise_cons.mp hpair).2
        (fun c hc => hxv ▸ (List.pairwise_cons.mp hpair).1 c hc) hbxs hbv
      rwa [← hxv] at hrec

theorem walk0_tie (err : Nat × Nat → ℚ) (reached : ℚ → Bool) :
    ∀ (l : List (Nat × Nat)) (acc : ℚ) (last : Option ℚ) (a b : Nat × Nat),
      List.Pairwise (fun a c => err c ≤ err a) l →
      a ∈ walk0 err reached l acc last → b ∈ l → err b = err a →
      b ∈ walk0 err reached l acc last := by
  intro l
  induction l with
  | nil =>
    intro acc last a b _ ha _ _
    exact absurd ha (List.not_mem_nil a)
  | cons x xs ih =>
    intro acc last a b hpair ha hb hba
    by_cases hc : reached acc = false ∨ last = some (err x)
    · have hw : walk0 err reached (x :: xs) acc last
          = x :: walk0 err reached xs (acc + err x) (some (err x)) := by
        rw [walk0_cons, if_pos hc]
      rw [hw] at ha ⊢
      rcases List.mem_cons.mp hb with rfl | hbxs
      · exact List.mem_cons_self _ _
      · refine List.mem_cons.mpr (Or.inr ?_)
        rcases List.mem_cons.mp ha with rfl | haw
        · exact walk0_tie_all err reached xs (acc + err a) (err a) b
            (List.pairwise_cons.mp hpair).2
            (fun c hc' => (List.pairwise_cons.mp hpair).1 c hc') hbxs hba
        · exact ih (acc + err x) (some (err x)) a b
            (List.pairwise_cons.mp hpair).2 haw hbxs hba
    · have hw : walk0 err reached (x :: xs) acc last = [] := by
        rw [walk0_cons, if_neg hc]
      rw [hw] at ha
      exact absurd ha (List.not_mem_nil a)

/-- The exact rational squared comparison of `reached0` agrees with the
spec's square-root form of the strategy-0 target. -/
theorem reached0_iff_sqrt (t total acc : ℚ) (ht : 0 ≤ t) (htot : 0 ≤ total) :
    reached0 ((t : ℚ) : WithTop ℚ) 0 total acc = true
      ↔ Real.sqrt (t : ℝ) * (total : ℝ) ≤ (acc : ℝ) := by
  have hform : reached0 ((t : ℚ) : WithTop ℚ) 0 total acc
      = decide (t * total ^ 2 ≤ acc ^ 2 ∧ 0 ≤ acc) := by
    unfold reached0
    rw [if_pos rfl]
  rw [hform]
  simp only [decide_eq_true_eq]
  constructor
  · rintro ⟨hsq, hacc⟩
    have h1 : Real.sqrt ((t : ℝ) * (total : ℝ) ^ 2)
        ≤ Real.sqrt ((acc : ℝ) ^ 2) := by
      apply Real.sqrt_le_sqrt
      exact_mod_cast hsq
    rw [Real.sqrt_mul (by exact_mod_cast ht),
        Real.sqrt_sq (by exact_mod_cast htot),
        Real.sqrt_sq (by exact_mod_cast hacc)] at h1
    exact h1
  · intro h
    have hsqt : (0 : ℝ) ≤ Real.sqrt (t : ℝ) * (total : ℝ) :=
      mul_nonneg (Real.sqrt_nonneg _) (by exact_mod_cast htot)
    have hacc : (0 : ℝ) ≤ (acc : ℝ) := le_trans hsqt h
    constructor
    · have h2 : (Real.sqrt (t : ℝ) * (total : ℝ)) ^ 2 ≤ (acc : ℝ) ^ 2 :=
        pow_le_pow_left₀ hsqt h 2
      rw [mul_pow, Real.sq_sqrt (by exact_mod_cast ht)] at h2
      exact_mod_cast h2
    · exact_mod_cast hacc

/-- C4: under STRATEGY=0 `adapt` selects elements by walking the
descending-sorted error index: the selection is a prefix of the index; when
the walk stopped before exhausting the index, the accumulated error of the
selection has reached sqrt(threshold) times the total error (or the
externally supplied to_be_processed budget when one is given); and whenever
an element of the index shares the boundary error value of a selected
element, it is itself selected. -/
theorem adapt_strategy0_selection (s : AdaptState) (p : AdaptParams) (t : ℚ)
    (hstrat : p.strat = Strategy.s0) (hthr : p.thr = ((t : ℚ) : WithTop ℚ))
    (ht : 0 ≤ t) (htot : 0 ≤ s.total_err)
    (hsort : List.Pairwise (fun a b => elemErr s b ≤ elemErr s a) s.esort) :
    (∃ rest, selectedElems s p ++ rest = s.esort)
      ∧ (p.toBeProcessed = 0 → selectedElems s p ≠ s.esort →
          Real.sqrt (t : ℝ) * (s.total_err : ℝ)
            ≤ ((((selectedElems s p).map (elemErr s)).sum : ℚ) : ℝ))
      ∧ (p.toBeProcessed ≠ 0 → selectedElems s p ≠ s.esort →
          p.toBeProcessed ≤ ((selectedElems s p).map (elemErr s)).sum)
      ∧ (∀ a ∈ selectedElems s p, ∀ b ∈ s.esort,
          elemErr s b = elemErr s a → b ∈ selectedElems s p) := by
  have hsel : selectedElems s p
      = walk0 (elemErr s) (reached0 p.thr p.toBeProcessed s.total_err)
          s.esort 0 none := by
    unfold selectedElems
    rw [hstrat]
  refine ⟨?_, ?_, ?_, ?_⟩
  · rw [hsel]
    exact walk0_prefix _ _ _ _ _
  · intro htbp hne
    rw [hsel, hthr, htbp] at hne ⊢
    have hstop := walk0_stop (elemErr s) _ s.esort 0 none hne
    rw [zero_add] at hstop
    exact (reached0_iff_sqrt t s.total_err _ ht htot).mp hstop
  · intro htbp hne
    rw [hsel] at hne ⊢
    have hstop := walk0_stop (elemErr s) _ s.esort 0 none hne
    rw [zero_add] at hstop
    unfold reached0 at hstop
    rw [if_neg htbp] at hstop
    exact of_decide_eq_true hstop
  · intro a ha b hb hba
    rw [hsel] at ha ⊢
    exact walk0_tie (elemErr s) _ s.esort 0 none a b hsort ha hb hba

/-- Concrete instance state used by the STRATEGY=0 witness: one component
with two active elements of errors 3 and 1, sorted descending, errors
computed. -/
def wStateSorted : AdaptState :=
  ⟨1, fun _ e => if e = 0 then 3 else 1, [(0, 0), (0, 1)], 4, true,
    fun _ => wQuadInfo⟩

/-- Concrete adapt parameters used by the STRATEGY=0 witness: threshold 1,
no external budget. -/
def wParamsS0 : AdaptParams :=
  ⟨((1 : ℚ) : WithTop ℚ), Strategy.s0, 0, false, -1, 10, false, 0⟩

theorem adapt_strategy0_selection_witness :
    wParamsS0.strat = Strategy.s0
      ∧ wParamsS0.thr = (((1 : ℚ) : ℚ) : WithTop ℚ)
      ∧ (0 : ℚ) ≤ 1
      ∧ (0 : ℚ) ≤ wStateSorted.total_err
      ∧ List.Pairwise
          (fun a b => elemErr wStateSorted b ≤ elemErr wStateSorted a)
          wStateSorted.esort
      ∧ ((∃ rest, selectedElems wStateSorted wParamsS0 ++ rest
            = wStateSorted.esort)
          ∧ (wParamsS0.toBeProcessed = 0 →
              selectedElems wStateSorted wParamsS0 ≠ wStateSorted.esort →
              Real.sqrt ((1 : ℚ) : ℝ) * (wStateSorted.total_err : ℝ)
                ≤ ((((selectedElems wStateSorted wParamsS0).map
                    (elemErr wStateSorted)).sum : ℚ) : ℝ))
          ∧ (wParamsS0.toBeProcessed ≠ 0 →
              selectedElems wStateSorted wParamsS0 ≠ wStateSorted.esort →
              wParamsS0.toBeProcessed
                ≤ ((selectedElems wStateSorted wParamsS0).map
                    (elemErr wStateSorted)).sum)
          ∧ (∀ a ∈ selectedElems wStateSorted wParamsS0,
              ∀ b ∈ wStateSorted.esort,
              elemErr wStateSorted b = elemErr wStateSorted a →
              b ∈ selectedElems wStateSorted wParamsS0)) :=
  ⟨rfl, rfl, by decide, by decide, by decide,
   adapt_strategy0_selection wStateSorted wParamsS0 1 rfl rfl
     (by decide) (by decide) (by decide)⟩

/-- Modelled from the spec: the quadrature samples of one active element for
the error evaluator: the element id, the quadrature weights, the sampled
value and first derivatives of the difference between the coarse and the
reference solution, and the sampled reference solution itself for the norm
(spec section 4.2; the default form is the H1 form on the diagonal). -/
structure ElemSample where
  id : Nat
  w : List ℚ
  diff : List (ℚ × ℚ × ℚ)
  ref : List (ℚ × ℚ × ℚ)

/-- Modelled from the spec: one solution component handed to the calc_error
family: its coarse and reference solutions restricted to the component's
active elements, already sampled at quadrature points. -/
structure CompData where
  elems : List ElemSample

/-- Modelled from the spec: quadrature evaluation of the default H1 form of
one function against itself on one element, the weighted sum of the squared
value and first-derivative samples (spec section 4.2). -/
def h1Form (w : List ℚ) (v : List (ℚ × ℚ × ℚ)) : ℚ :=
  (w.zip v).foldl
    (fun acc q => acc + q.1 * (q.2.1 ^ 2 + q.2.2.1 ^ 2 + q.2.2.2 ^ 2)) 0

/-- Modelled from the spec: `eval_error` (header part_001 lines 106-108),
one element's contribution to the squared error: the form evaluated on the
difference between the coarse and the reference solution. -/
def eval_error (e : ElemSample) : ℚ := h1Form e.w e.diff

/-- Modelled from the spec: `eval_norm` (header part_001 lines 110-111),
one element's contribution to the squared reference energy norm. -/
def eval_norm (e : ElemSample) : ℚ := h1Form e.w e.ref

/-- Modelled from the spec: the per-component per-element error record the
calc_error functions store, indexed by component and element id
(spec section 3, "Error Record"; header field `errors`). -/
def errorTables (comps : List CompData) : List (List (Nat × ℚ)) :=
  comps.map fun c => c.elems.map fun e => (e.id, eval_error e)

/-- The total squared error as the calc_error loop accumulates it while
storing the element records. -/
def totalErrAcc (comps : List CompData) : ℚ :=
  comps.foldl (fun acc c => c.elems.foldl (fun a e => a + eval_error e) acc) 0

/-- The total squared reference energy norm as the calc_error loop
accumulates it. -/
def totalNormAcc (comps : List CompData) : ℚ :=
  comps.foldl (fun acc c => c.elems.foldl (fun a e => a + eval_norm e) acc) 0

/-- Modelled from the spec and header: `H1OrthoHP::calc_error_n` (header
part_001 lines 60-63): computes and stores every element's squared error
contribution and returns the square root of their sum normalized by the
reference energy norm (spec section 3, "Error Record"). -/
noncomputable def calc_error_n (comps : List CompData) : ℝ :=
  Real.sqrt ((totalErrAcc comps / totalNormAcc comps : ℚ) : ℝ)

/-- Modelled from the spec and header: `H1OrthoHP::calc_error` (header
part_001 line 55), the type-safe one-solution version, computed directly
without the component loop. -/
noncomputable def calc_error (c : CompData) : ℝ :=
  Real.sqrt (((c.elems.foldl (fun a e => a + eval_error e) 0)
      / (c.elems.foldl (fun a e => a + eval_norm e) 0) : ℚ) : ℝ)

/-- Modelled from the spec and header: `H1OrthoHP::calc_error_2` (header
part_001 line 58), the type-safe two-solution version, computed directly as
the sum over the two components without the loop. -/
noncomputable def calc_error_2 (c1 c2 : CompData) : ℝ :=
  Real.sqrt ((((c1.elems.foldl (fun a e => a + eval_error e) 0)
        + (c2.elems.foldl (fun a e => a + eval_error e) 0))
      / ((c1.elems.foldl (fun a e => a + eval_norm e) 0)
        + (c2.elems.foldl (fun a e => a + eval_norm e) 0)) : ℚ) : ℝ)

/-- Modelled from the spec: the state update a calc_error call performs on
the H1OrthoHP instance: the error record is stored and the have_errors flag
is set, which is what later entitles adapt to run (spec section 4.4,
preconditions). -/
def calcErrorUpdate (comps : List CompData) (s : AdaptState) : AdaptState :=
  { s with
    errors := fun i j =>
      (((errorTables comps).getD i []).lookup j).getD 0,
    total_err := totalErrAcc comps,
    have_errors := true }

theorem calcErrorUpdate_sets_have_errors (comps : List CompData)
    (s : AdaptState) : (calcErrorUpdate comps s).have_errors = true := rfl

theorem foldl_add_shift {α : Type} (f : α → ℚ) :
    ∀ (l : List α) (a : ℚ),
      l.foldl (fun acc e => acc + f e) a
        = a + l.foldl (fun acc e => acc + f e) 0 := by
  intro l
  induction l with
  | nil => intro a; simp
  | cons x xs ih =>
    intro a
    simp only [List.foldl_cons]
    rw [ih (a + f x), ih (0 + f x)]
    ring

theorem foldl_add_eq_sum {α : Type} (f : α → ℚ) :
    ∀ l : List α, l.foldl (fun acc e => acc + f e) 0 = (l.map f).sum := by
  intro l
  induction l with
  | nil => rfl
  | cons x xs ih =>
    simp only [List.foldl_cons, List.map_cons, List.sum_cons]
    rw [foldl_add_shift f xs (0 + f x), ih]
    ring

theorem h1Form_nonneg (w : List ℚ) (v : List (ℚ × ℚ × ℚ))
    (hw : ∀ x ∈ w, (0 : ℚ) ≤ x) : 0 ≤ h1Form w v := by
  unfold h1Form
  rw [foldl_add_eq_sum]
  apply List.sum_nonneg
  intro q hq
  obtain ⟨p, hp, rfl⟩ := List.mem_map.mp hq
  have hpw : p.1 ∈ w := (List.of_mem_zip hp).1
  exact mul_nonneg (hw p.1 hpw)
    (by positivity)

theorem totalErrAcc_eq_tables (comps : List CompData) :
    totalErrAcc comps
      = ((errorTables comps).map (fun tbl => (tbl.map Prod.snd).sum)).sum := by
  induction comps with
  | nil => rfl
  | cons c cs ih =>
    have hstep : totalErrAcc (c :: cs)
        = cs.foldl (fun acc c => c.elems.foldl (fun a e => a + eval_error e) acc)
            (c.elems.foldl (fun a e => a + eval_error e) 0) := rfl
    have hshift : ∀ (l : List CompData) (a : ℚ),
        l.foldl (fun acc c => c.elems.foldl (fun a e => a + eval_error e) acc) a
          = a + totalErrAcc l := by
      intro l
      induction l with
      | nil => intro a; simp [totalErrAcc]
      | cons d ds ihd =>
        intro a
        simp only [List.foldl_cons]
        rw [foldl_add_shift (fun e => eval_error e) d.elems a, ihd]
        have hd : totalErrAcc (d :: ds)
            = d.elems.foldl (fun a e => a + eval_error e) 0 + totalErrAcc ds := by
          have : totalErrAcc (d :: ds)
              = ds.foldl (fun acc c => c.elems.foldl (fun a e => a + eval_error e) acc)
                  (d.elems.foldl (fun a e => a + eval_error e) 0) := rfl
          rw [this, ihd]
        rw [hd]
        ring
    rw [hstep, hshift]
    simp only [errorTables, List.map_cons, List.sum_cons]
    rw [ih]
    have hmap : ((c.elems.map fun e => (e.id, eval_error e)).map Prod.snd)
        = c.elems.map eval_error := by
      rw [List.map_map]
      rfl
    rw [hmap, foldl_add_eq_sum (fun e => eval_error e) c.elems]
    simp [errorTables]

/-- C6: after a calc_error call every stored per-element per-component error
value is non-negative (the quadrature weights being non-negative), and the
value calc_error_n returns is the square root of the sum of the stored
per-element contributions normalized by the reference energy norm. -/
theorem calc_error_n_nonneg_sqrt (comps : List CompData)
    (hw : ∀ c ∈ comps, ∀ e ∈ c.elems, ∀ x ∈ e.w, (0 : ℚ) ≤ x) :
    (∀ tbl ∈ errorTables comps, ∀ pr ∈ tbl, (0 : ℚ) ≤ pr.2)
      ∧ calc_error_n comps
          = Real.sqrt
              ((((errorTables comps).map
                    (fun tbl => (tbl.map Prod.snd).sum)).sum
                  / totalNormAcc comps : ℚ) : ℝ) := by
  constructor
  · intro tbl htbl pr hpr
    obtain ⟨c, hc, rfl⟩ := List.mem_map.mp htbl
    obtain ⟨e, he, rfl⟩ := List.mem_map.mp hpr
    exact h1Form_nonneg e.w e.diff (hw c hc e he)
  · unfold calc_error_n
    rw [totalErrAcc_eq_tables]

/-- Concrete component data used by the calc_error witness: one component,
one element with a single quadrature point of weight 1. -/
def wComp : CompData :=
  ⟨[⟨0, [1], [(1, 0, 0)], [(1, 0, 0)]⟩]⟩

theorem calc_error_n_nonneg_sqrt_witness :
    (∀ c ∈ [wComp], ∀ e ∈ c.elems, ∀ x ∈ e.w, (0 : ℚ) ≤ x)
      ∧ ((∀ tbl ∈ errorTables [wComp], ∀ pr ∈ tbl, (0 : ℚ) ≤ pr.2)
          ∧ calc_error_n [wComp]
              = Real.sqrt
                  ((((errorTables [wComp]).map
                        (fun tbl => (tbl.map Prod.snd).sum)).sum
                      / totalNormAcc [wComp] : ℚ) : ℝ)) :=
  ⟨by decide, calc_error_n_nonneg_sqrt [wComp] (by decide)⟩

/-- C10: the type-safe wrappers agree extensionally with the variadic
function: calc_error equals calc_error_n on the one component, and
calc_error_2 equals calc_error_n on the two components. -/
theorem calc_error_wrappers_agree (c c1 c2 : CompData) :
    calc_error c = calc_error_n [c]
      ∧ calc_error_2 c1 c2 = calc_error_n [c1, c2] := by
  constructor
  · rfl
  · unfold calc_error_2 calc_error_n
    have he : totalErrAcc [c1, c2]
        = c1.elems.foldl (fun a e => a + eval_error e) 0
          + c2.elems.foldl (fun a e => a + eval_error e) 0 := by
      have hstep : totalErrAcc [c1, c2]
          = c2.elems.foldl (fun a e => a + eval_error e)
              (c1.elems.foldl (fun a e => a + eval_error e) 0) := rfl
      rw [hstep, foldl_add_shift (fun e => eval_error e)]
    have hn : totalNormAcc [c1, c2]
        = c1.elems.foldl (fun a e => a + eval_norm e) 0
          + c2.elems.foldl (fun a e => a + eval_norm e) 0 := by
      have hstep : totalNormAcc [c1, c2]
          = c2.elems.foldl (fun a e => a + eval_norm e)
              (c1.elems.foldl (fun a e => a + eval_norm e) 0) := rfl
      rw [hstep, foldl_add_shift (fun e => eval_norm e)]
    rw [he, hn]

/-- Modelled from the spec and header: the compiled maximum polynomial order
of the orthonormal basis tables (the header dimensions `basecnt` as
`[2][11]`, orders 0 through 10; the tutorial drivers use MAX_ORDER = 10). -/
def orthoMaxOrder : Nat := 10

/-- Modelled from the spec and header: the process-wide orthonormal basis
table state (header part_001 lines 113-116: `obase`, `basecnt`,
`obase_ready`): the ready flag and, per shape (0 triangle, 1 quad) and
order, the orthonormalized basis data. -/
structure OrthoBase where
  obase_ready : Bool
  obase : Nat → Nat → List ℚ

/-- Modelled from the spec and header: `H1OrthoHP::calc_ortho_base` (header
line 118) builds the orthonormal tables once per process: a no-op when they
are already built (spec sections 4.1 and 5); the Gram-Schmidt build of the
tables themselves is abstracted as the argument `build`. -/
def calc_ortho_base (build : Nat → Nat → List ℚ) (s : OrthoBase) : OrthoBase :=
  if s.obase_ready = true then s else ⟨true, build⟩

/-- Modelled from the spec: the table lookup: requesting an order above the
compiled maximum is a fatal programming error; otherwise the first call
builds the tables and every call returns the cached read-only table with
the state (spec section 4.1). -/
def get_ortho_table (build : Nat → Nat → List ℚ) (s : OrthoBase)
    (shape order : Nat) : Except Fatal (List ℚ × OrthoBase) :=
  if orthoMaxOrder < order then Except.error Fatal.orderAboveMax
  else
    Except.ok ((calc_ortho_base build s).obase shape order,
      calc_ortho_base build s)

/-- C8: requesting an orthonormal-basis projection table for an order above
the compiled maximum is a fatal, non-recoverable error; for orders up to
the maximum the table is built at most once per process - building an
already built state is a no-op - and is immutable after construction:
every further lookup returns the very same state and table. -/
theorem ortho_base_lifecycle (build : Nat → Nat → List ℚ) (s : OrthoBase)
    (shape order : Nat) (hord : order ≤ orthoMaxOrder) :
    (∀ o, orthoMaxOrder < o →
        get_ortho_table build s shape o = Except.error Fatal.orderAboveMax)
      ∧ get_ortho_table build s shape order
          = Except.ok ((calc_ortho_base build s).obase shape order,
              calc_ortho_base build s)
      ∧ calc_ortho_base build (calc_ortho_base build s) = calc_ortho_base build s
      ∧ (s.obase_ready = true → calc_ortho_base build s = s)
      ∧ (∀ shape2 order2, order2 ≤ orthoMaxOrder →
          get_ortho_table build (calc_ortho_base build s) shape2 order2
            = Except.ok ((calc_ortho_base build s).obase shape2 order2,
                calc_ortho_base build s)) := by
  have hidem : calc_ortho_base build (calc_ortho_base build s)
      = calc_ortho_base build s := by
    unfold calc_ortho_base
    cases hb : s.obase_ready with
    | false => simp
    | true => simp [hb]
  refine ⟨?_, ?_, hidem, ?_, ?_⟩
  · intro o ho
    unfold get_ortho_table
    rw [if_pos ho]
  · unfold get_ortho_table
    rw [if_neg (not_lt.mpr hord)]
  · intro hb
    unfold calc_ortho_base
    rw [if_pos hb]
  · intro shape2 order2 hord2
    unfold get_ortho_table
    rw [if_neg (not_lt.mpr hord2), hidem]

theorem ortho_base_lifecycle_witness :
    (10 : Nat) ≤ orthoMaxOrder
      ∧ ((∀ o, orthoMaxOrder < o →
            get_ortho_table (fun _ _ => []) ⟨false, fun _ _ => []⟩ 0 o
              = Except.error Fatal.orderAboveMax)
          ∧ get_ortho_table (fun _ _ => []) ⟨false, fun _ _ => []⟩ 0 10
              = Except.ok
                  ((calc_ortho_base (fun _ _ => []) ⟨false, fun _ _ => []⟩).obase 0 10,
                    calc_ortho_base (fun _ _ => []) ⟨false, fun _ _ => []⟩)
          ∧ calc_ortho_base (fun _ _ => [])
                (calc_ortho_base (fun _ _ => []) ⟨false, fun _ _ => []⟩)
              = calc_ortho_base (fun _ _ => []) ⟨false, fun _ _ => []⟩
          ∧ ((⟨false, fun _ _ => []⟩ : OrthoBase).obase_ready = true →
              calc_ortho_base (fun _ _ => []) ⟨false, fun _ _ => []⟩
                = ⟨false, fun _ _ => []⟩)
          ∧ (∀ shape2 order2, order2 ≤ orthoMaxOrder →
              get_ortho_table (fun _ _ => [])
                  (calc_ortho_base (fun _ _ => []) ⟨false, fun _ _ => []⟩)
                  shape2 order2
                = Except.ok
                    ((calc_ortho_base (fun _ _ => [])
                        ⟨false, fun _ _ => []⟩).obase shape2 order2,
                      calc_ortho_base (fun _ _ => []) ⟨false, fun _ _ => []⟩))) :=
  ⟨by decide,
   ortho_base_lifecycle (fun _ _ => []) ⟨false, fun _ _ => []⟩ 0 10 (by decide)⟩

/-- Modelled from the spec: the state-passing form of the analyzer call:
`get_optimal_refinement` is a static member writing only its
out-parameters, so the embedding returns its result together with the
engine state it was handed (spec section 4.3: "no mutation occurs here -
this is a pure, side-effect-free scoring function"). -/
def get_optimal_refinement_st (s : AdaptState) (info : ElemInfo)
    (h_only iso_only : Bool) (maxOrd : Nat) : Candidate × AdaptState :=
  (get_optimal_refinement info h_only iso_only maxOrd, s)

/-- C9: `get_optimal_refinement` is pure and side-effect free: the engine
state it is given - element, mesh, space, reference solution and H1OrthoHP
instance state - is returned unchanged, only the output (the winning split
type and per-son target orders) is produced, and that output depends only
on the element inputs: two calls over different instance states return the
same refinement. -/
theorem get_optimal_refinement_pure (s1 s2 : AdaptState) (info : ElemInfo)
    (h_only iso_only : Bool) (maxOrd : Nat) :
    (get_optimal_refinement_st s1 info h_only iso_only maxOrd).2 = s1
      ∧ (get_optimal_refinement_st s1 info h_only iso_only maxOrd).1
          = (get_optimal_refinement_st s2 info h_only iso_only maxOrd).1 :=
  ⟨rfl, rfl⟩

end Hermes2D
